import Mathlib

/-!
Shallow embedding of the hcunit policy-test harness (package `commands`):
the values merger (`mergeValues` / `mergeMaps`), the manifest normalizer
(`UnmarshalYamlMap`), test discovery (`getQueryList`), and the query
evaluator / aggregator (`evalPolicyOnInput`), together with theorems
checking the natural-language specification against this code.

Go `map[string]interface{}` values are modelled as association lists of
`String × Value`; Go map iteration order is represented by the order of
the association list. YAML parsing and the external rego engine are
modelled as function parameters (the code only observes their outcomes).
-/

namespace HCUnit

/-- A YAML/JSON-like value (`interface{}` after `yaml.Unmarshal`). -/
inductive Value where
  | null : Value
  | str : String → Value
  | num : Int → Value
  | bool : Bool → Value
  | seq : List Value → Value
  | map : List (String × Value) → Value
deriving Repr

/-- Go map read: `v, ok := m[k]` (first binding wins; Go maps have unique keys). -/
def lookupV : List (String × Value) → String → Option Value
  | [], _ => none
  | (k, v) :: rest, k' => if k = k' then some v else lookupV rest k'

/-- Go map write `m[k] = v`: replace the binding if the key is present,
otherwise add it. -/
def setKey : List (String × Value) → String → Value → List (String × Value)
  | [], k, v => [(k, v)]
  | (k', v') :: rest, k, v =>
      if k' = k then (k, v) :: rest else (k', v') :: setKey rest k v

mutual

/-- `mergeMaps(a, b)` from the source: copy `a`, then for every key `k` of
`b`, if both the incoming value and the existing value are maps merge them
recursively, otherwise the incoming value replaces the existing one. -/
def mergeMaps (a : List (String × Value)) : List (String × Value) → List (String × Value)
  | [] => a
  | (k, v) :: rest => mergeMaps (mergeStep a k v) rest
termination_by b => sizeOf b

/-- One iteration of the `for k, v := range b` loop body of `mergeMaps`. -/
def mergeStep (a : List (String × Value)) (k : String) (v : Value) :
    List (String × Value) :=
  match v, lookupV a k with
  | Value.map vm, some (Value.map bm) => setKey a k (Value.map (mergeMaps bm vm))
  | _, _ => setKey a k v
termination_by sizeOf v

end

/-- `mergeValues`: left-fold of `mergeMaps` over the parsed values files,
starting from the empty document; a file that fails to parse aborts the
whole merge with that error. -/
def mergeValues : List (Except String (List (String × Value))) →
    Except String (List (String × Value))
  | files => go files []
where
  go : List (Except String (List (String × Value))) → List (String × Value) →
      Except String (List (String × Value))
    | [], base => .ok base
    | .error e :: _, _ => .error e
    | .ok currentMap :: rest, base => go rest (mergeMaps base currentMap)

/-- `filepath.Ext`: scan the path backwards; the suffix starting at the last
dot of the final element, empty when the final element has no dot. The
first argument is the path reversed, the second collects the characters
already passed (in forward order). -/
def extAux : List Char → List Char → String
  | [], _ => ""
  | c :: rest, acc =>
      if c = '.' then String.mk ('.' :: acc)
      else if c = '/' then "" else extAux rest (c :: acc)

def fext (p : String) : String := extAux p.data.reverse []

/-- `filepath.Base`: the last element of the path after stripping trailing
separators; "." for the empty path, "/" for a path of only separators. -/
def fbase (p : String) : String :=
  if p = "" then "."
  else
    let r := p.data.reverse.dropWhile (fun c => c = '/')
    if r.isEmpty then "/"
    else String.mk ((r.takeWhile (fun c => c ≠ '/')).reverse)

/-- `strings.Split(template, "\n---\n")`: cut at every non-overlapping
occurrence of the document separator, scanning left to right. -/
def splitDocsAux : List Char → List Char → List String
  | '\n' :: '-' :: '-' :: '-' :: '\n' :: rest, cur =>
      String.mk cur.reverse :: splitDocsAux rest []
  | c :: rest, cur => splitDocsAux rest (c :: cur)
  | [], cur => [String.mk cur.reverse]

def splitDocs (template : String) : List String := splitDocsAux template.data []

/-- The chunk loop of `UnmarshalYamlMap`: parse every chunk, abort on the
first parse error, and keep (in order) the chunks that did not parse to
nil. `parse` models `yaml.Unmarshal` into `interface{}`; `.ok none` is a
chunk that unmarshals to nil. -/
def parseChunks (parse : String → Except String (Option Value)) (fpath : String) :
    List String → Except String (List Value)
  | [] => .ok []
  | doc :: rest =>
      match parse doc with
      | .error e => .error ("Unmarshal " ++ fpath ++ " failed: " ++ e)
      | .ok none => parseChunks parse fpath rest
      | .ok (some config) =>
          match parseChunks parse fpath rest with
          | .error e => .error e
          | .ok configs => .ok (config :: configs)

/-- `UnmarshalYamlMap`: normalize each rendered file. A `.yml`/`.yaml`
file is split on the document separator and its non-nil chunks decide the
stored value (one chunk: the chunk itself; several: the ordered sequence;
none: no entry). Any other file stores its raw text under its base name. -/
def UnmarshalYamlMap (parse : String → Except String (Option Value)) :
    List (String × String) → Except String (List (String × Value))
  | entries => go entries []
where
  go : List (String × String) → List (String × Value) →
      Except String (List (String × Value))
    | [], out => .ok out
    | (fpath, template) :: rest, out =>
        if fext fpath = ".yml" ∨ fext fpath = ".yaml" then
          match parseChunks parse fpath (splitDocs template) with
          | .error e => .error e
          | .ok configDocs =>
              match configDocs with
              | [] => go rest out
              | [d] => go rest (setKey out (fbase fpath) d)
              | ds => go rest (setKey out (fbase fpath) (Value.seq ds))
        else
          go rest (setKey out (fbase fpath) (Value.str template))

/-- `valuesHashName` from `eval.go`. -/
def valuesHashName : String := "values"

/-- The input-assembly step of `EvalCommand.Execute`: normalize the
rendered output, then store the merged values document under the reserved
key before handing the document to `evalPolicyOnInput`. -/
def executeInput (parse : String → Except String (Option Value))
    (renderedOutput : List (String × String))
    (valuesConfig : List (String × Value)) :
    Except String (List (String × Value)) :=
  match UnmarshalYamlMap parse renderedOutput with
  | .error e => .error ("formatting policy input failed: " ++ e)
  | .ok policyInput => .ok (setKey policyInput valuesHashName (Value.map valuesConfig))

/-! ### Test discovery (`getQueryList`) -/

/-- A rego rule head as exposed by the static analyzer (`rule.Head.Name`
and `rule.Head.Key`). -/
structure RuleHead where
  name : String
  key : String
deriving DecidableEq, Repr

structure Rule where
  head : RuleHead
deriving DecidableEq, Repr

structure Module where
  rules : List Rule
deriving DecidableEq, Repr

/-- `s` begins with `pre` (the two strings as character lists):
`strings.HasPrefix(s, pre)`. -/
def beginsWith : List Char → List Char → Bool
  | _, [] => true
  | [], _ :: _ => false
  | c :: cs, p :: ps => c = p && beginsWith cs ps

/-- The test filter of `getQueryList`, exactly as the source has it:
`strings.HasPrefix("expect[", name) || strings.HasPrefix("assert[", name)`,
i.e. the head name must be an initial segment of the literal `"expect["`
or of `"assert["`. -/
def ruleIsTest (name : String) : Bool :=
  beginsWith "expect[".data name.data || beginsWith "assert[".data name.data

/-- `fmt.Sprintf("%s[%s]", rule.Head.Name, rule.Head.Key)`. -/
def mkId (h : RuleHead) : String := h.name ++ "[" ++ h.key ++ "]"

/-- `res[id] += 1` on an association-list counter (a missing key counts 0). -/
def bump : List (String × Nat) → String → List (String × Nat)
  | [], id => [(id, 1)]
  | (k, n) :: rest, id =>
      if k = id then (k, n + 1) :: rest else (k, n) :: bump rest id

/-- The rule scan of `getQueryList` over successfully loaded modules:
count every rule whose head name passes the filter under its identifier. -/
def getQueryListLoaded (mods : List Module) : List (String × Nat) :=
  mods.foldl
    (fun res mod =>
      mod.rules.foldl
        (fun res rule =>
          if ruleIsTest rule.head.name then bump res (mkId rule.head) else res)
        res)
    []

/-- `getQueryList`: `tester.Load`'s error is discarded (`mods, _, _ :=`);
on a load failure the returned module map is nil, so the scan runs over
nothing and the result is the empty mapping. -/
def getQueryList (loadResult : Except String (List Module)) : List (String × Nat) :=
  match loadResult with
  | .error _ => []
  | .ok mods => getQueryListLoaded mods

/-- lookup in the counter mapping (a missing key counts 0). -/
def lookupCount : List (String × Nat) → String → Nat
  | [], _ => 0
  | (k, n) :: rest, id => if k = id then n else lookupCount rest id

/-! The spec's version of the test filter, kept apart from the source's
`ruleIsTest` so the two can be compared. -/

def isAlpha (c : Char) : Bool := ('a' ≤ c && c ≤ 'z') || ('A' ≤ c && c ≤ 'Z')

inductive ScanState where
  | atStart
  | afterUnderscore
  | inWord
deriving DecidableEq, Repr

/-- Acceptor for the regular expression `(_[A-Za-z]+)*` on what follows
the reserved word. -/
def grammarScan : ScanState → List Char → Bool
  | .atStart, [] => true
  | .atStart, c :: r => c = '_' && grammarScan .afterUnderscore r
  | .afterUnderscore, [] => false
  | .afterUnderscore, c :: r => isAlpha c && grammarScan .inWord r
  | .inWord, [] => true
  | .inWord, c :: r =>
      if c = '_' then grammarScan .afterUnderscore r
      else isAlpha c && grammarScan .inWord r

/-- Modelled from the spec: a head name matches the reserved grammar
`(expect|assert)(_[A-Za-z]+)*` anchored at both ends, or is literally of
the bracketed form `expect[...]` / `assert[...]`. This is the spec's
classification, written to be compared against the source's `ruleIsTest`. -/
def specRuleIsTest (name : String) : Bool :=
  (beginsWith name.data "expect".data && grammarScan .atStart (name.data.drop 6))
    || (beginsWith name.data "assert".data && grammarScan .atStart (name.data.drop 6))
    || (beginsWith name.data "expect[".data && name.data.getLast? = some ']')
    || (beginsWith name.data "assert[".data && name.data.getLast? = some ']')

/-! ### Query evaluation and aggregation (`evalPolicyOnInput`) -/

/-- One expression of a rego result (`result.Expressions[i]`, of which the
evaluator reads the `Text` field). -/
structure ResultExpr where
  text : String
deriving DecidableEq, Repr

/-- One element of a `rego.ResultSet`. -/
structure RegoResult where
  expressions : List ResultExpr
deriving DecidableEq, Repr

/-- Outcome of one engine interaction for one query: `PrepareForEval`
fails, `Eval` fails, or a result set comes back. -/
inductive EngineOutcome where
  | prepareErr : EngineOutcome
  | evalErr : EngineOutcome
  | ok : List RegoResult → EngineOutcome
deriving DecidableEq, Repr

/-- An engine for which every prepared query evaluates without error,
returning the fixed result set `f q`. -/
def okEngine (f : String → List RegoResult) : String → EngineOutcome :=
  fun q => .ok (f q)

/-- Terminal outcome of `evalPolicyOnInput` (`nil` is `success`). -/
inductive RunResult where
  | duplicatePolicyFailure : RunResult
  | prepareFailed : String → RunResult
  | evalFailed : String → RunResult
  | unmatchedQuery : RunResult
  | policyFailure : RunResult
  | success : RunResult
deriving DecidableEq, Repr

/-- `fmt.Sprintf("data.%s.%s", namespace, querySuffix)`. -/
def qstr (ns querySuffix : String) : String := "data." ++ ns ++ "." ++ querySuffix

/-- The result-interpretation loop: start from `false` and set the flag
whenever some expression's text equals the query string. -/
def classify (resultSet : List RegoResult) (q : String) : Bool :=
  resultSet.foldl
    (fun b result =>
      result.expressions.foldl (fun b e => if e.text = q then true else b) b)
    false

/-- The `for querySuffix, querymatches := range queryList` loop of
`evalPolicyOnInput`. `calls` counts engine invocations; `acc` is
`testResults` in insertion order. -/
def evalLoop (engine : String → EngineOutcome) (ns : String) :
    List (String × Nat) → Nat → List (String × Bool) →
    Nat × Except RunResult (List (String × Bool))
  | [], calls, acc => (calls, .ok acc)
  | (querySuffix, querymatches) :: rest, calls, acc =>
      if 1 < querymatches then (calls, .error .duplicatePolicyFailure)
      else
        match engine (qstr ns querySuffix) with
        | .prepareErr => (calls + 1, .error (.prepareFailed (qstr ns querySuffix)))
        | .evalErr => (calls + 1, .error (.evalFailed (qstr ns querySuffix)))
        | .ok resultSet =>
            evalLoop engine ns rest (calls + 1)
              (acc ++ [(qstr ns querySuffix, classify resultSet (qstr ns querySuffix))])

/-- What a run of `evalPolicyOnInput` leaves behind: the number of engine
invocations, the PASS/FAIL report rows (printed only when aggregation is
reached), and the terminal result. -/
structure RunOutput where
  calls : Nat
  report : List (String × Bool)
  result : RunResult
deriving DecidableEq, Repr

/-- `evalPolicyOnInput`, given the discovered query list (in iteration
order) and the engine's behaviour per query string. -/
def evalPolicyOnInput (engine : String → EngineOutcome) (ns : String)
    (queryList : List (String × Nat)) : RunOutput :=
  match evalLoop engine ns queryList 0 [] with
  | (calls, .error r) => ⟨calls, [], r⟩
  | (calls, .ok testResults) =>
      if queryList.length = 0 then ⟨calls, [], .unmatchedQuery⟩
      else if testResults.any (fun p => !p.2) then ⟨calls, testResults, .policyFailure⟩
      else ⟨calls, testResults, .success⟩

/-- The result classifications that report an engine failure. -/
def isEngineError : RunResult → Bool
  | .prepareFailed _ => true
  | .evalFailed _ => true
  | _ => false

theorem lookupV_setKey_self (m : List (String × Value)) (k : String) (v : Value) :
    lookupV (setKey m k v) k = some v := by
  induction m with
  | nil => simp [setKey, lookupV]
  | cons p rest ih =>
      obtain ⟨k', v'⟩ := p
      by_cases h : k' = k
      · simp [setKey, h, lookupV]
      · simp [setKey, h, lookupV, ih]

theorem lookupV_setKey_ne (m : List (String × Value)) (k k' : String) (v : Value)
    (h : k ≠ k') : lookupV (setKey m k v) k' = lookupV m k' := by
  induction m with
  | nil => simp [setKey, lookupV, h]
  | cons p rest ih =>
      obtain ⟨k₀, v₀⟩ := p
      by_cases h₀ : k₀ = k
      · subst h₀
        simp [setKey, lookupV, h]
      · simp [setKey, h₀, lookupV, ih]

theorem lookupV_eq_none_of_not_mem (m : List (String × Value)) (k : String)
    (h : k ∉ m.map Prod.fst) : lookupV m k = none := by
  induction m with
  | nil => simp [lookupV]
  | cons p rest ih =>
      obtain ⟨k₀, v₀⟩ := p
      simp only [List.map_cons, List.mem_cons] at h
      push_neg at h
      simp [lookupV, Ne.symm h.1, ih h.2]

/-- The collision rule of `mergeMaps` applied to one key: what the merged
map holds at a key whose incoming value is `v` and whose existing value is
`old`. -/
def mergedAt (old : Option Value) (v : Value) : Value :=
  match v, old with
  | Value.map vm, some (Value.map am) => Value.map (mergeMaps am vm)
  | _, _ => v

theorem mergeStep_eq (a : List (String × Value)) (k : String) (v : Value) :
    mergeStep a k v = setKey a k (mergedAt (lookupV a k) v) := by
  unfold mergeStep
  split
  · rename_i vm bm h
    simp [mergedAt, h]
  · rename_i hcatch
    congr 1
    unfold mergedAt
    split
    · rename_i vm bm h
      exact (hcatch vm bm rfl h).elim
    · rfl

theorem lookupV_mergeMaps (b : List (String × Value)) :
    ∀ (a : List (String × Value)) (k : String), (b.map Prod.fst).Nodup →
    lookupV (mergeMaps a b) k =
      match lookupV b k with
      | some v => some (mergedAt (lookupV a k) v)
      | none => lookupV a k := by
  induction b with
  | nil => intro a k _; simp [mergeMaps, lookupV]
  | cons p rest ih =>
      intro a k hnd
      obtain ⟨k₀, v₀⟩ := p
      simp only [List.map_cons, List.nodup_cons] at hnd
      rw [mergeMaps, ih (mergeStep a k₀ v₀) k hnd.2]
      by_cases hk : k₀ = k
      · subst hk
        rw [lookupV_eq_none_of_not_mem rest k₀ hnd.1]
        simp [lookupV, mergeStep_eq, lookupV_setKey_self]
      · have h₁ : lookupV (mergeStep a k₀ v₀) k = lookupV a k := by
          rw [mergeStep_eq, lookupV_setKey_ne _ _ _ _ hk]
        simp [lookupV, hk, h₁]

theorem mergeValues_go_ok (docs : List (List (String × Value))) :
    ∀ base, mergeValues.go (docs.map Except.ok) base = .ok (docs.foldl mergeMaps base) := by
  induction docs with
  | nil => intro base; simp [mergeValues.go]
  | cons d rest ih => intro base; simp [mergeValues.go, ih]

theorem mergeValues_all_ok (docs : List (List (String × Value))) :
    mergeValues (docs.map Except.ok) = .ok (docs.foldl mergeMaps []) := by
  simp [mergeValues, mergeValues_go_ok]

/-- How many rules of `rules` the discovery filter counts under `id`. -/
def countRuleTests (rules : List Rule) (id : String) : Nat :=
  (rules.filter (fun r => ruleIsTest r.head.name && mkId r.head = id)).length

/-- How many rules of the whole program the discovery filter counts under `id`. -/
def countTests (mods : List Module) (id : String) : Nat :=
  (mods.map (fun mod => countRuleTests mod.rules id)).sum

theorem lookupCount_bump (m : List (String × Nat)) (k k' : String) :
    lookupCount (bump m k) k' = lookupCount m k' + (if k = k' then 1 else 0) := by
  induction m with
  | nil =>
      by_cases h : k = k' <;> simp [bump, lookupCount, h]
  | cons p rest ih =>
      obtain ⟨k₀, n⟩ := p
      by_cases h₀ : k₀ = k
      · subst h₀
        by_cases h : k₀ = k' <;> simp [bump, lookupCount, h]
      · by_cases h : k₀ = k'
        · subst h
          have hne : ¬ k = k₀ := fun hh => h₀ hh.symm
          simp [bump, h₀, lookupCount, hne]
        · simp [bump, h₀, lookupCount, h, ih]

theorem lookupCount_rules_foldl (rules : List Rule) :
    ∀ (res : List (String × Nat)) (id : String),
    lookupCount
      (rules.foldl
        (fun res rule =>
          if ruleIsTest rule.head.name then bump res (mkId rule.head) else res)
        res) id
      = lookupCount res id + countRuleTests rules id := by
  induction rules with
  | nil => intro res id; simp [countRuleTests]
  | cons r rest ih =>
      intro res id
      by_cases hr : ruleIsTest r.head.name
      · by_cases hid : mkId r.head = id
        · simp [List.foldl_cons, hr, ih, lookupCount_bump, hid, countRuleTests]
          omega
        · simp [List.foldl_cons, hr, ih, lookupCount_bump, hid, countRuleTests]
      · simp [List.foldl_cons, hr, ih, countRuleTests]

theorem lookupCount_getQueryListLoaded_aux (mods : List Module) :
    ∀ (res : List (String × Nat)) (id : String),
    lookupCount
      (mods.foldl
        (fun res mod =>
          mod.rules.foldl
            (fun res rule =>
              if ruleIsTest rule.head.name then bump res (mkId rule.head) else res)
            res)
        res) id
      = lookupCount res id + countTests mods id := by
  induction mods with
  | nil => intro res id; simp [countTests]
  | cons mod rest ih =>
      intro res id
      simp [List.foldl_cons, ih, lookupCount_rules_foldl, countTests]
      omega

/-! ### Evaluator lemmas -/

theorem evalLoop_okEngine (f : String → List RegoResult) (ns : String)
    (l : List (String × Nat)) :
    ∀ (c : Nat) (acc : List (String × Bool)), (∀ p ∈ l, p.2 ≤ 1) →
    evalLoop (okEngine f) ns l c acc =
      (c + l.length,
       .ok (acc ++ l.map fun p => (qstr ns p.1, classify (f (qstr ns p.1)) (qstr ns p.1)))) := by
  induction l with
  | nil => intro c acc _; simp [evalLoop]
  | cons p rest ih =>
      intro c acc h
      obtain ⟨s, n⟩ := p
      have hn : ¬ 1 < n := by
        have := h (s, n) (by simp)
        simpa using Nat.not_lt.mpr this
      simp only [evalLoop, hn, if_false, okEngine]
      rw [ih (c + 1) _ (fun q hq => h q (List.mem_cons_of_mem _ hq))]
      simp only [List.map_cons, List.length_cons, Prod.mk.injEq]
      constructor
      · omega
      · simp

theorem evalLoop_dup (f : String → List RegoResult) (ns : String)
    (l : List (String × Nat)) :
    ∀ (c : Nat) (acc : List (String × Bool)), (∃ p ∈ l, 1 < p.2) →
    evalLoop (okEngine f) ns l c acc =
      (c + (l.takeWhile (fun p => p.2 ≤ 1)).length, .error .duplicatePolicyFailure) := by
  induction l with
  | nil => intro c acc h; simp at h
  | cons p rest ih =>
      intro c acc h
      obtain ⟨s, n⟩ := p
      by_cases hn : 1 < n
      · have : (decide (n ≤ 1)) = false := by
          simp [Nat.not_le.mpr hn]
        simp [evalLoop, hn, List.takeWhile, this]
      · have hrest : ∃ q ∈ rest, 1 < q.2 := by
          obtain ⟨q, hq, hgt⟩ := h
          rcases List.mem_cons.mp hq with heq | hmem
          · exact absurd (heq ▸ hgt) (by simpa using hn)
          · exact ⟨q, hmem, hgt⟩
        have hd : (decide (n ≤ 1)) = true := by simp [Nat.not_lt.mp hn]
        simp only [evalLoop, hn, if_false, okEngine]
        rw [ih (c + 1) _ hrest]
        simp [List.takeWhile, hd]
        omega

theorem foldl_if_or {α : Type} (p : α → Prop) [DecidablePred p] (l : List α) :
    ∀ b : Bool,
      l.foldl (fun b x => if p x then true else b) b
        = (b || l.any fun x => decide (p x)) := by
  induction l with
  | nil => intro b; simp
  | cons x xs ih =>
      intro b
      rw [List.foldl_cons, ih]
      by_cases hx : p x <;> simp [hx]

theorem foldl_or {α : Type} (p : α → Bool) (l : List α) :
    ∀ b : Bool, l.foldl (fun b x => b || p x) b = (b || l.any p) := by
  induction l with
  | nil => intro b; simp
  | cons x xs ih => intro b; simp [List.foldl_cons, ih, Bool.or_assoc]

theorem classify_eq_any (resultSet : List RegoResult) (q : String) :
    classify resultSet q
      = resultSet.any (fun r => r.expressions.any (fun e => e.text = q)) := by
  unfold classify
  have hstep :
      (fun (b : Bool) (result : RegoResult) =>
          result.expressions.foldl (fun b e => if e.text = q then true else b) b)
        = fun (b : Bool) (result : RegoResult) =>
          b || result.expressions.any (fun e => e.text = q) := by
    funext b result
    exact foldl_if_or (fun e => e.text = q) result.expressions b
  rw [hstep, foldl_or]
  simp

theorem classify_iff (resultSet : List RegoResult) (q : String) :
    classify resultSet q = true ↔
      ∃ r ∈ resultSet, ∃ e ∈ r.expressions, e.text = q := by
  rw [classify_eq_any]
  simp [List.any_eq_true]

theorem anyOfMap {α β : Type} (g : α → β) (p : β → Bool) (l : List α) :
    (l.map g).any p = l.any fun x => p (g x) := by
  induction l with
  | nil => rfl
  | cons x xs ih => simp [ih]

/-- Shape of a whole run over an engine that always answers, when no
identifier is duplicated. -/
theorem evalPolicyOnInput_okEngine (f : String → List RegoResult) (ns : String)
    (l : List (String × Nat)) (h : ∀ p ∈ l, p.2 ≤ 1) :
    evalPolicyOnInput (okEngine f) ns l =
      ⟨l.length,
       l.map (fun p => (qstr ns p.1, classify (f (qstr ns p.1)) (qstr ns p.1))),
       if l.length = 0 then .unmatchedQuery
       else if l.any (fun p => ! classify (f (qstr ns p.1)) (qstr ns p.1)) then .policyFailure
       else .success⟩ := by
  unfold evalPolicyOnInput
  rw [evalLoop_okEngine f ns l 0 [] h]
  by_cases hl : l.length = 0
  · obtain rfl : l = [] := List.length_eq_zero.mp hl
    simp
  · have hc :
        ((l.map fun p => (qstr ns p.1, classify (f (qstr ns p.1)) (qstr ns p.1))).any
            fun p => !p.2)
          = l.any fun p => ! classify (f (qstr ns p.1)) (qstr ns p.1) :=
      anyOfMap _ _ l
    simp only [hl, if_false, List.nil_append, Nat.zero_add]
    rw [hc]
    by_cases hany : (l.any fun p => ! classify (f (qstr ns p.1)) (qstr ns p.1)) = true <;>
      simp [hany]

/-- Shape of a whole run over an engine that always answers, when some
identifier is duplicated. -/
theorem evalPolicyOnInput_dup (f : String → List RegoResult) (ns : String)
    (l : List (String × Nat)) (h : ∃ p ∈ l, 1 < p.2) :
    evalPolicyOnInput (okEngine f) ns l =
      ⟨(l.takeWhile (fun p => p.2 ≤ 1)).length, [], .duplicatePolicyFailure⟩ := by
  unfold evalPolicyOnInput
  rw [evalLoop_dup f ns l 0 [] h]
  simp

theorem parseChunks_all_ok (parse : String → Except String (Option Value))
    (fpath : String) (docs : List String)
    (h : ∀ doc ∈ docs, ∃ r, parse doc = .ok r) :
    parseChunks parse fpath docs
      = .ok (docs.filterMap fun doc =>
          match parse doc with
          | .ok r => r
          | .error _ => none) := by
  induction docs with
  | nil => rfl
  | cons d rest ih =>
      obtain ⟨r, hr⟩ := h d (by simp)
      have hrest := ih fun x hx => h x (List.mem_cons_of_mem _ hx)
      cases r with
      | none => simp [parseChunks, hr, hrest, List.filterMap_cons]
      | some v => simp [parseChunks, hr, hrest, List.filterMap_cons]

theorem mem_keys_setKey (m : List (String × Value)) (k₀ k : String) (v : Value)
    (h : k ∈ m.map Prod.fst) : k ∈ (setKey m k₀ v).map Prod.fst := by
  induction m with
  | nil => simp at h
  | cons p rest ih =>
      obtain ⟨k₁, v₁⟩ := p
      by_cases h₁ : k₁ = k₀
      · subst h₁
        simpa [setKey] using h
      · simp only [List.map_cons, List.mem_cons] at h
        rcases h with h | h
        · simp [setKey, h₁, h]
        · simp [setKey, h₁, ih h]

/-! ### The claims -/

/-- Claim C1 counterexample: with the iteration order visiting a unique
identifier before the duplicate one, the run does end in
`DuplicatePolicyFailure`, but the engine has already been invoked once —
not zero times as the claim states. -/
theorem duplicate_detection_counterexample :
    (∃ p ∈ ([("expect[a]", 1), ("expect[b]", 2)] : List (String × Nat)), 1 < p.2)
    ∧ (evalPolicyOnInput (okEngine fun _ => []) "main"
          [("expect[a]", 1), ("expect[b]", 2)]).result = .duplicatePolicyFailure
    ∧ (evalPolicyOnInput (okEngine fun _ => []) "main"
          [("expect[a]", 1), ("expect[b]", 2)]).calls ≠ 0 := by
  decide

/-- Claim C1 (amended): when some identifier has occurrence count above 1
and every query the engine does receive evaluates without error, the run
fails with `DuplicatePolicyFailure`; the engine is invoked exactly once
per identifier that precedes the first duplicate in iteration order, which
can be more than zero times. -/
theorem duplicate_aborts_run_amended (f : String → List RegoResult) (ns : String)
    (l : List (String × Nat)) (h : ∃ p ∈ l, 1 < p.2) :
    (evalPolicyOnInput (okEngine f) ns l).result = .duplicatePolicyFailure
    ∧ (evalPolicyOnInput (okEngine f) ns l).calls
        = (l.takeWhile fun p => p.2 ≤ 1).length := by
  rw [evalPolicyOnInput_dup f ns l h]
  exact ⟨rfl, rfl⟩

theorem duplicate_aborts_run_amended_witness :
    (∃ p ∈ ([("expect[x]", 2)] : List (String × Nat)), 1 < p.2)
    ∧ (evalPolicyOnInput (okEngine fun _ => []) "ns" [("expect[x]", 2)]).result
        = .duplicatePolicyFailure :=
  ⟨by decide, (duplicate_aborts_run_amended (fun _ => []) "ns" _ (by decide)).1⟩

/-- Claim C2 counterexample: the source's filter is
`strings.HasPrefix("expect[", name) || strings.HasPrefix("assert[", name)`
(the head name must be an initial segment of the literal), not the spec's
reserved-word grammar: `expect_foo` matches the grammar but is not
discovered, while the fragment `exp` is discovered without matching the
grammar. -/
theorem test_naming_grammar_counterexample :
    specRuleIsTest "expect_foo" = true
    ∧ getQueryListLoaded [⟨[⟨⟨"expect_foo", "x"⟩⟩]⟩] = []
    ∧ ruleIsTest "exp" = true
    ∧ specRuleIsTest "exp" = false := by
  decide

/-- Claim C2 (amended): discovery classifies a rule as a test iff its head
name is an initial segment of the literal `"expect["` or `"assert["`; for
every qualifying rule it forms `<head-name>[<head-key>]` and increments
that identifier's occurrence count, returning the full mapping — the count
stored for each identifier equals the number of qualifying rules producing
it, including counts of 2 and more, with no filtering and no failure. -/
theorem getQueryList_counts_amended (mods : List Module) (id : String) :
    lookupCount (getQueryListLoaded mods) id = countTests mods id := by
  have h := lookupCount_getQueryListLoaded_aux mods [] id
  simpa [getQueryListLoaded, lookupCount] using h

/-- Claim C3: with no duplicates and an engine that answers every query,
each discovered identifier is reported under the query string
`data.<ns>.<id>` with the classification of its result set; a test is
PASS exactly when some result carries an expression whose text equals the
query string, an empty result set is FAIL, and no engine-error result is
produced. -/
theorem pass_classification (f : String → List RegoResult) (ns : String)
    (l : List (String × Nat)) (h : ∀ p ∈ l, p.2 ≤ 1) :
    (evalPolicyOnInput (okEngine f) ns l).report
        = l.map (fun p => (qstr ns p.1, classify (f (qstr ns p.1)) (qstr ns p.1)))
    ∧ isEngineError (evalPolicyOnInput (okEngine f) ns l).result = false
    ∧ (∀ (resultSet : List RegoResult) (q : String),
        classify resultSet q = true ↔ ∃ r ∈ resultSet, ∃ e ∈ r.expressions, e.text = q)
    ∧ (∀ q, classify [] q = false) := by
  rw [evalPolicyOnInput_okEngine f ns l h]
  refine ⟨rfl, ?_, classify_iff, fun _ => rfl⟩
  by_cases hl : l.length = 0
  · simp [hl, isEngineError]
  · by_cases hany : (l.any fun p => ! classify (f (qstr ns p.1)) (qstr ns p.1)) = true <;>
      simp [hl, hany, isEngineError]

theorem pass_classification_witness :
    (∀ p ∈ ([("expect[a]", 1), ("expect[b]", 1)] : List (String × Nat)), p.2 ≤ 1)
    ∧ (evalPolicyOnInput
          (okEngine fun q => if q = "data.main.expect[a]" then [⟨[⟨q⟩]⟩] else [])
          "main" [("expect[a]", 1), ("expect[b]", 1)]).report
        = [("data.main.expect[a]", true), ("data.main.expect[b]", false)] :=
  ⟨by decide, by
    rw [(pass_classification
        (fun q => if q = "data.main.expect[a]" then [⟨[⟨q⟩]⟩] else [])
        "main" [("expect[a]", 1), ("expect[b]", 1)] (by decide)).1]
    rfl⟩

/-- Claim C4: an empty discovered mapping makes the run end in
`UnmatchedQuery`, never in success — for any engine behaviour. -/
theorem empty_queryList_unmatched (engine : String → EngineOutcome) (ns : String)
    (queryList : List (String × Nat)) (h : queryList = []) :
    (evalPolicyOnInput engine ns queryList).result = .unmatchedQuery
    ∧ (evalPolicyOnInput engine ns queryList).result ≠ .success := by
  subst h
  exact ⟨rfl, fun hcon => nomatch hcon⟩

theorem empty_queryList_unmatched_witness :
    (([] : List (String × Nat)) = [])
    ∧ (evalPolicyOnInput (okEngine fun _ => []) "main" []).result = .unmatchedQuery :=
  ⟨rfl, (empty_queryList_unmatched (okEngine fun _ => []) "main" [] rfl).1⟩

/-- Claim C5: with at least one discovered test, no duplicates and no
engine errors, the run ends in `PolicyFailure` exactly when some test is
classified FAIL, in success exactly when every test is classified PASS,
and the report carries one row per discovered identifier. -/
theorem verdict_aggregation (f : String → List RegoResult) (ns : String)
    (l : List (String × Nat)) (hne : l ≠ []) (h : ∀ p ∈ l, p.2 ≤ 1) :
    ((evalPolicyOnInput (okEngine f) ns l).result = .policyFailure ↔
        ∃ p ∈ (evalPolicyOnInput (okEngine f) ns l).report, p.2 = false)
    ∧ ((evalPolicyOnInput (okEngine f) ns l).result = .success ↔
        ∀ p ∈ (evalPolicyOnInput (okEngine f) ns l).report, p.2 = true)
    ∧ (evalPolicyOnInput (okEngine f) ns l).report.map Prod.fst
        = l.map fun p => qstr ns p.1 := by
  have hl : ¬ l.length = 0 := fun hh => hne (List.length_eq_zero.mp hh)
  have hrep : (evalPolicyOnInput (okEngine f) ns l).report
      = l.map fun p => (qstr ns p.1, classify (f (qstr ns p.1)) (qstr ns p.1)) := by
    rw [evalPolicyOnInput_okEngine f ns l h]
  have hres : (evalPolicyOnInput (okEngine f) ns l).result
      = if (l.any fun p => ! classify (f (qstr ns p.1)) (qstr ns p.1)) = true
        then .policyFailure else .success := by
    rw [evalPolicyOnInput_okEngine f ns l h]
    simp [hl]
  have hiff :
      (l.any fun p => ! classify (f (qstr ns p.1)) (qstr ns p.1)) = true ↔
        ∃ p ∈ l.map fun p => (qstr ns p.1, classify (f (qstr ns p.1)) (qstr ns p.1)),
          p.2 = false := by
    rw [List.any_eq_true]
    constructor
    · rintro ⟨p, hp, hb⟩
      refine ⟨_, List.mem_map_of_mem _ hp, ?_⟩
      simpa using hb
    · rintro ⟨q, hq, hb⟩
      rw [List.mem_map] at hq
      obtain ⟨p, hp, rfl⟩ := hq
      exact ⟨p, hp, by simpa using hb⟩
  rw [hrep, hres]
  by_cases hany : (l.any fun p => ! classify (f (qstr ns p.1)) (qstr ns p.1)) = true
  · rw [if_pos hany]
    obtain ⟨p, hp, hfalse⟩ := hiff.mp hany
    refine ⟨⟨fun _ => ⟨p, hp, hfalse⟩, fun _ => rfl⟩, ?_, by rw [List.map_map]; rfl⟩
    constructor
    · intro hcon; exact nomatch hcon
    · intro hall
      have h1 := hall p hp
      rw [h1] at hfalse
      exact absurd hfalse (by decide)
  · rw [if_neg hany]
    refine ⟨?_, ?_, by rw [List.map_map]; rfl⟩
    · constructor
      · intro hcon; exact nomatch hcon
      · intro hex
        exact absurd (hiff.mpr hex) hany
    · refine ⟨fun _ p hp => ?_, fun _ => rfl⟩
      by_contra hc
      exact hany (hiff.mpr ⟨p, hp, by simpa using hc⟩)

theorem verdict_aggregation_witness :
    (([("expect[a]", 1)] : List (String × Nat)) ≠ [])
    ∧ (∀ p ∈ ([("expect[a]", 1)] : List (String × Nat)), p.2 ≤ 1)
    ∧ ((evalPolicyOnInput (okEngine fun _ => []) "main" [("expect[a]", 1)]).result
          = .policyFailure ↔
        ∃ p ∈ (evalPolicyOnInput (okEngine fun _ => []) "main" [("expect[a]", 1)]).report,
          p.2 = false) :=
  ⟨by decide, by decide,
   (verdict_aggregation (fun _ => []) "main" [("expect[a]", 1)] (by decide) (by decide)).1⟩

/-- Claim C6: merging override documents is a left-fold of `mergeMaps`
starting from the empty document; on a key collision two mappings merge
recursively and any other incoming value replaces the existing one, and
`merge({a:{x:1}}, {a:{y:2}}) = {a:{x:1,y:2}}`. -/
theorem mergeValues_fold_and_collisions :
    (∀ docs : List (List (String × Value)),
        mergeValues (docs.map Except.ok) = .ok (docs.foldl mergeMaps []))
    ∧ (∀ (a b : List (String × Value)) (k : String), (b.map Prod.fst).Nodup →
        lookupV (mergeMaps a b) k =
          match lookupV b k, lookupV a k with
          | some (Value.map vm), some (Value.map am) =>
              some (Value.map (mergeMaps am vm))
          | some v, _ => some v
          | none, _ => lookupV a k)
    ∧ mergeMaps [("a", Value.map [("x", Value.num 1)])]
          [("a", Value.map [("y", Value.num 2)])]
        = [("a", Value.map [("x", Value.num 1), ("y", Value.num 2)])] := by
  refine ⟨mergeValues_all_ok, ?_,
    by simp [mergeMaps, mergeStep, mergedAt, setKey, lookupV]⟩
  intro a b k hnd
  rw [lookupV_mergeMaps b a k hnd]
  cases hbk : lookupV b k with
  | none => rfl
  | some v =>
      cases hak : lookupV a k with
      | none => cases v <;> simp [mergedAt]
      | some w => cases v <;> cases w <;> simp [mergedAt]

theorem mergeValues_fold_and_collisions_witness :
    ((([("b", Value.num 2)] : List (String × Value)).map Prod.fst).Nodup)
    ∧ lookupV (mergeMaps [("a", Value.num 1)] [("b", Value.num 2)]) "b"
        = some (Value.num 2) :=
  ⟨by simp, by
    rw [mergeValues_fold_and_collisions.2.1 [("a", Value.num 1)] [("b", Value.num 2)] "b"
        (by simp)]
    rfl⟩

/-- Claim C7: a structured (`.yml`/`.yaml`) rendered file is split on the
document separator, nil-parsing chunks are discarded in place, and the
remaining chunks decide the stored value — one chunk is stored unwrapped
under the base name, several as the ordered sequence, none means the key
is omitted; a non-structured file stores its raw text verbatim under its
base name. -/
theorem unmarshalYamlMap_normalization (parse : String → Except String (Option Value))
    (fpath template : String) :
    ((fext fpath = ".yml" ∨ fext fpath = ".yaml") →
      (∀ vs, parseChunks parse fpath (splitDocs template) = .ok vs →
        UnmarshalYamlMap parse [(fpath, template)] = .ok
          (match vs with
           | [] => []
           | [d] => [(fbase fpath, d)]
           | ds => [(fbase fpath, Value.seq ds)]))
      ∧ ((∀ doc ∈ splitDocs template, ∃ r, parse doc = .ok r) →
          parseChunks parse fpath (splitDocs template)
            = .ok ((splitDocs template).filterMap fun doc =>
                match parse doc with
                | .ok r => r
                | .error _ => none)))
    ∧ (¬ (fext fpath = ".yml" ∨ fext fpath = ".yaml") →
        UnmarshalYamlMap parse [(fpath, template)]
          = .ok [(fbase fpath, Value.str template)]) := by
  constructor
  · intro hy
    refine ⟨?_, parseChunks_all_ok parse fpath (splitDocs template)⟩
    intro vs hvs
    rcases vs with _ | ⟨d, _ | ⟨d', ds⟩⟩ <;>
      simp [UnmarshalYamlMap, UnmarshalYamlMap.go, hy, hvs, setKey]
  · intro hny
    simp [UnmarshalYamlMap, UnmarshalYamlMap.go, hny, setKey]

theorem unmarshalYamlMap_normalization_witness :
    (fext "chart/f.yaml" = ".yml" ∨ fext "chart/f.yaml" = ".yaml")
    ∧ UnmarshalYamlMap (fun s => if s = "" then .ok none else .ok (some (Value.str s)))
        [("chart/f.yaml", "a\n---\n\n---\nb")]
      = .ok [("f.yaml", Value.seq [Value.str "a", Value.str "b"])] :=
  ⟨Or.inr rfl, by
    exact ((unmarshalYamlMap_normalization
        (fun s => if s = "" then .ok none else .ok (some (Value.str s)))
        "chart/f.yaml" "a\n---\n\n---\nb").1 (Or.inr rfl)).1
      [Value.str "a", Value.str "b"] rfl⟩

/-- Claim C8: the document handed to evaluation is the normalized rendered
output with the merged values document stored under the reserved key
`"values"`: that key maps to the merged document, and every key of the
normalized output is still a key of the assembled document. -/
theorem execute_values_key (parse : String → Except String (Option Value))
    (renderedOutput : List (String × String)) (valuesConfig : List (String × Value))
    (policyInput : List (String × Value))
    (h : UnmarshalYamlMap parse renderedOutput = .ok policyInput) :
    executeInput parse renderedOutput valuesConfig
      = .ok (setKey policyInput valuesHashName (Value.map valuesConfig))
    ∧ lookupV (setKey policyInput valuesHashName (Value.map valuesConfig)) valuesHashName
      = some (Value.map valuesConfig)
    ∧ ∀ k ∈ policyInput.map Prod.fst,
        k ∈ (setKey policyInput valuesHashName (Value.map valuesConfig)).map Prod.fst := by
  exact ⟨by simp [executeInput, h], lookupV_setKey_self _ _ _,
    fun k hk => mem_keys_setKey _ _ _ _ hk⟩

theorem execute_values_key_witness :
    UnmarshalYamlMap (fun _ => .ok none) [("x", "raw")] = .ok [("x", Value.str "raw")]
    ∧ lookupV (setKey [("x", Value.str "raw")] valuesHashName (Value.map []))
        valuesHashName = some (Value.map []) :=
  ⟨rfl, (execute_values_key (fun _ => .ok none) [("x", "raw")] [] [("x", Value.str "raw")]
      rfl).2.1⟩

/-- Claim C9: for a fixed discovered mapping and fixed per-query result
sets, any two iteration orders produce the same terminal result — the
report rows may come in a different order, but the run's verdict is the
same. -/
theorem verdict_order_independent (f : String → List RegoResult) (ns : String)
    (l₁ l₂ : List (String × Nat)) (hp : l₁.Perm l₂) :
    (evalPolicyOnInput (okEngine f) ns l₁).result
      = (evalPolicyOnInput (okEngine f) ns l₂).result := by
  by_cases hd : ∃ p ∈ l₁, 1 < p.2
  · have hd₂ : ∃ p ∈ l₂, 1 < p.2 := by
      obtain ⟨p, hm, hgt⟩ := hd
      exact ⟨p, hp.mem_iff.mp hm, hgt⟩
    rw [evalPolicyOnInput_dup f ns l₁ hd, evalPolicyOnInput_dup f ns l₂ hd₂]
  · have h₁ : ∀ p ∈ l₁, p.2 ≤ 1 := by
      intro p hm
      by_contra hc
      exact hd ⟨p, hm, Nat.not_le.mp hc⟩
    have h₂ : ∀ p ∈ l₂, p.2 ≤ 1 := fun p hm => h₁ p (hp.mem_iff.mpr hm)
    have hlen : l₁.length = l₂.length := hp.length_eq
    have hany : (l₁.any fun p => ! classify (f (qstr ns p.1)) (qstr ns p.1))
        = (l₂.any fun p => ! classify (f (qstr ns p.1)) (qstr ns p.1)) := by
      by_cases ha : (l₁.any fun p => ! classify (f (qstr ns p.1)) (qstr ns p.1)) = true
      · rw [ha]
        symm
        rw [List.any_eq_true] at ha ⊢
        obtain ⟨x, hx, hb⟩ := ha
        exact ⟨x, hp.mem_iff.mp hx, hb⟩
      · have ha' : ¬ (l₂.any fun p => ! classify (f (qstr ns p.1)) (qstr ns p.1)) = true := by
          intro hcon
          rw [List.any_eq_true] at hcon
          obtain ⟨x, hx, hb⟩ := hcon
          exact ha (List.any_eq_true.mpr ⟨x, hp.mem_iff.mpr hx, hb⟩)
        rw [Bool.eq_false_iff.mpr ha, Bool.eq_false_iff.mpr ha']
    have hres : ∀ (l : List (String × Nat)), (∀ p ∈ l, p.2 ≤ 1) →
        (evalPolicyOnInput (okEngine f) ns l).result
          = (if l.length = 0 then RunResult.unmatchedQuery
             else if (l.any fun p => ! classify (f (qstr ns p.1)) (qstr ns p.1)) = true
             then RunResult.policyFailure else RunResult.success) := by
      intro l hh
      rw [evalPolicyOnInput_okEngine f ns l hh]
    rw [hres l₁ h₁, hres l₂ h₂, hlen, hany]

theorem verdict_order_independent_witness :
    (([("expect[a]", 1), ("expect[b]", 1)] : List (String × Nat)).Perm
        [("expect[b]", 1), ("expect[a]", 1)])
    ∧ (evalPolicyOnInput (okEngine fun _ => []) "main"
          [("expect[a]", 1), ("expect[b]", 1)]).result
      = (evalPolicyOnInput (okEngine fun _ => []) "main"
          [("expect[b]", 1), ("expect[a]", 1)]).result :=
  ⟨List.Perm.swap _ _ _,
   verdict_order_independent (fun _ => []) "main" _ _ (List.Perm.swap _ _ _)⟩

/-- Claim C10: when loading the policy program fails, `getQueryList`
discards the error and yields the empty mapping, so the run ends in
`UnmatchedQuery` rather than in any load- or engine-error result. -/
theorem load_error_discarded (e : String) (engine : String → EngineOutcome)
    (ns : String) :
    getQueryList (.error e) = []
    ∧ (evalPolicyOnInput engine ns (getQueryList (.error e))).result = .unmatchedQuery
    ∧ isEngineError (evalPolicyOnInput engine ns (getQueryList (.error e))).result
        = false :=
  ⟨rfl, rfl, rfl⟩

end HCUnit
